import Mathlib

/-!
# Verification of the `codecrafters-git-rust` wire codecs and object store

Shallow embedding of the repository's pure logic over `List Nat` byte
streams (every element stands for one `u8`, so values are below 256 on all
inputs the theorems exercise).  Decoders are prefix-consuming: they return
`Option (value × rest)`, with `none` standing for any non-success outcome of
the Rust code (a returned `Err` or a panic, both of which abort the
operation).  The zlib compression layer is an external library treated as a
lossless codec, so files are modelled by the byte payload the compressor
round-trips.
-/

namespace GitRs

/-! ## Hex digits (the `hex` crate as used by `pkt.rs` and `lib.rs`) -/

/-- One lowercase hex digit of a nibble, as its ASCII code
(`format!` with the `x` specifier). -/
def hexDigit (d : Nat) : Nat :=
  if d < 10 then 48 + d else 97 + (d - 10)

/-- Value of one ASCII hex character; `hex::decode` accepts both cases. -/
def hexVal (c : Nat) : Option Nat :=
  if 48 ≤ c ∧ c ≤ 57 then some (c - 48)
  else if 97 ≤ c ∧ c ≤ 102 then some (c - 87)
  else if 65 ≤ c ∧ c ≤ 70 then some (c - 55)
  else none

/-- The 4 ASCII characters produced by `format!` with the `04x` specifier
for a length below 2^16. -/
def toHex4 (n : Nat) : List Nat :=
  [hexDigit (n / 4096 % 16), hexDigit (n / 256 % 16),
   hexDigit (n / 16 % 16), hexDigit (n % 16)]

/-- `hex::decode` of 4 characters followed by `u16::from_be_bytes` on the two
resulting bytes, as done in `Pkt::read_line`. -/
def hex4 (a b c d : Nat) : Option Nat := do
  let va ← hexVal a
  let vb ← hexVal b
  let vc ← hexVal c
  let vd ← hexVal d
  pure ((va * 16 + vb) * 256 + (vc * 16 + vd))

theorem hexVal_hexDigit : ∀ d < 16, hexVal (hexDigit d) = some d := by decide

theorem hexDigit_eq_48 : ∀ d < 16, hexDigit d = 48 → d = 0 := by decide

/-! ## Packet lines (`src/pkt.rs`) -/

/-- `Pkt` from `pkt.rs`: a flush marker or a data payload. -/
inductive Pkt where
  | flush : Pkt
  | data : List Nat → Pkt
deriving DecidableEq, Repr

/-- `Pkt::as_bytes`: `"0000"` for a flush, otherwise the 4-hex-digit length
(counting itself) followed by the payload. -/
def Pkt.as_bytes : Pkt → List Nat
  | .flush => [48, 48, 48, 48]
  | .data p => toHex4 (p.length + 4) ++ p

/-- `Pkt::read_line`: read the 4-byte prefix (panic if fewer remain), return
`Flush` on a literal `"0000"`, otherwise hex-decode the prefix (`Err` on a
non-hex character), then take `size - 4` payload bytes (`copy_to_bytes`
panics when fewer remain; `size` below 4 underflows/panics as well). -/
def Pkt.read_line : List Nat → Option (Pkt × List Nat)
  | a :: b :: c :: d :: rest =>
    if [a, b, c, d] = [48, 48, 48, 48] then some (.flush, rest)
    else
      match hex4 a b c d with
      | none => none
      | some n =>
        if n < 4 then none
        else if rest.length < n - 4 then none
        else some (.data (rest.take (n - 4)), rest.drop (n - 4))
  | _ => none

theorem hex4_toHex4 (n : Nat) (h : n < 65536) :
    hex4 (hexDigit (n / 4096 % 16)) (hexDigit (n / 256 % 16))
      (hexDigit (n / 16 % 16)) (hexDigit (n % 16)) = some n := by
  rw [hex4]
  rw [hexVal_hexDigit _ (Nat.mod_lt _ (by norm_num)),
      hexVal_hexDigit _ (Nat.mod_lt _ (by norm_num)),
      hexVal_hexDigit _ (Nat.mod_lt _ (by norm_num)),
      hexVal_hexDigit _ (Nat.mod_lt _ (by norm_num))]
  simp only [Option.bind_eq_bind, Option.some_bind, Option.pure_def, Option.some.injEq]
  omega

theorem toHex4_ne_flush (n : Nat) (h4 : 4 ≤ n) (h : n < 65536) :
    toHex4 n ≠ [48, 48, 48, 48] := by
  intro hEq
  rw [toHex4] at hEq
  have h1 := hexDigit_eq_48 (n / 4096 % 16) (Nat.mod_lt _ (by norm_num))
  have h2 := hexDigit_eq_48 (n / 256 % 16) (Nat.mod_lt _ (by norm_num))
  have h3 := hexDigit_eq_48 (n / 16 % 16) (Nat.mod_lt _ (by norm_num))
  have h4' := hexDigit_eq_48 (n % 16) (Nat.mod_lt _ (by norm_num))
  simp only [List.cons.injEq, and_true] at hEq
  obtain ⟨e1, e2, e3, e4⟩ := hEq
  have := h1 e1
  have := h2 e2
  have := h3 e3
  have := h4' e4
  omega

/-- C3: for every byte payload `p` with `len(p) ≤ 65516`, encoding `p` as a
packet-line (4-byte lowercase-hex length counting itself, then the payload)
and decoding the result yields `Data(p)` exactly; and encoding the `Flush`
marker and decoding it yields `Flush`. -/
theorem pkt_roundtrip (p : List Nat) (h : p.length ≤ 65516) :
    Pkt.read_line (Pkt.as_bytes (.data p)) = some (.data p, [])
    ∧ Pkt.read_line (Pkt.as_bytes .flush) = some (.flush, []) := by
  constructor
  · have hlt : p.length + 4 < 65536 := by omega
    have hne := toHex4_ne_flush (p.length + 4) (by omega) hlt
    have hhex := hex4_toHex4 (p.length + 4) hlt
    simp only [toHex4] at hne
    simp only [Pkt.as_bytes, toHex4, List.cons_append, List.nil_append, Pkt.read_line]
    rw [if_neg hne, hhex]
    dsimp only
    rw [if_neg (by omega), if_neg (by omega)]
    simp only [Nat.add_sub_cancel, List.take_length, List.drop_length]
  · simp [Pkt.as_bytes, Pkt.read_line]

theorem pkt_roundtrip_witness :
    Pkt.read_line (Pkt.as_bytes (.data [1, 2, 3])) = some (.data [1, 2, 3], [])
    ∧ Pkt.read_line (Pkt.as_bytes .flush) = some (.flush, []) :=
  pkt_roundtrip [1, 2, 3] (by norm_num)

theorem hex4_none_of_component_none (a b c d : Nat)
    (h : hexVal a = none ∨ hexVal b = none ∨ hexVal c = none ∨ hexVal d = none) :
    hex4 a b c d = none := by
  rw [hex4]
  rcases h with h | h | h | h <;>
    simp only [h, Option.bind_eq_bind, Option.none_bind, Option.some_bind] <;>
    cases hexVal a <;> cases hexVal b <;> cases hexVal c <;> simp

/-- C7: packet-line decoding fails — rather than succeeding or diverging — when
the 4-byte length prefix contains a non-hex character, and when fewer bytes
than the advertised length remain in the input stream. -/
theorem pkt_read_line_failures :
    (∀ a b c d rest, (hexVal a = none ∨ hexVal b = none ∨ hexVal c = none ∨ hexVal d = none) →
        Pkt.read_line (a :: b :: c :: d :: rest) = none)
    ∧ (∀ a b c d rest n, hex4 a b c d = some n → 4 ≤ n → rest.length < n - 4 →
        Pkt.read_line (a :: b :: c :: d :: rest) = none) := by
  constructor
  · intro a b c d rest h
    have hflush : ¬([a, b, c, d] = [48, 48, 48, 48]) := by
      intro hEq
      simp only [List.cons.injEq, and_true] at hEq
      obtain ⟨ha, hb, hc, hd⟩ := hEq
      subst ha; subst hb; subst hc; subst hd
      rcases h with h | h | h | h <;> simp [hexVal] at h
    simp only [Pkt.read_line]
    rw [if_neg hflush, hex4_none_of_component_none a b c d h]
  · intro a b c d rest n hhex hn hrem
    have hflush : ¬([a, b, c, d] = [48, 48, 48, 48]) := by
      intro hEq
      simp only [List.cons.injEq, and_true] at hEq
      obtain ⟨ha, hb, hc, hd⟩ := hEq
      subst ha; subst hb; subst hc; subst hd
      have : hex4 48 48 48 48 = some 0 := by decide
      rw [this] at hhex
      simp at hhex
      omega
    simp only [Pkt.read_line]
    rw [if_neg hflush, hhex]
    dsimp only
    rw [if_neg (by omega), if_pos hrem]

theorem pkt_read_line_failures_witness :
    Pkt.read_line [103, 48, 48, 48] = none ∧ Pkt.read_line [48, 48, 49, 48] = none :=
  ⟨pkt_read_line_failures.1 103 48 48 48 [] (Or.inl (by decide)),
   pkt_read_line_failures.2 48 48 49 48 [] 16 (by decide) (by norm_num) (by decide)⟩

/-! ## The object store (`src/lib.rs`: `store_object`, `get_object`)

A repository's loose-object storage is modelled as a map from object id to
the byte payload that the zlib codec round-trips for that file.  A zlib
stream is self-terminating, so the decoder never observes stale bytes left
behind a shorter overwrite; the map therefore simply overwrites the entry. -/

/-- The three object kinds handled by `lib.rs`. -/
inductive ObjectType where
  | Blob : ObjectType
  | Tree : ObjectType
  | Commit : ObjectType
deriving DecidableEq, Repr

/-- `Object` from `lib.rs`: a typed byte payload. -/
structure Object where
  object_type : ObjectType
  content : List Nat
deriving DecidableEq, Repr

/-- The ASCII keyword produced by `Display for ObjectType`. -/
def ObjectType.keyword : ObjectType → List Nat
  | .Blob => [98, 108, 111, 98]
  | .Tree => [116, 114, 101, 101]
  | .Commit => [99, 111, 109, 109, 105, 116]

/-- ASCII decimal rendering of a number (`Display for usize`). -/
def decBytes (n : Nat) : List Nat :=
  if n < 10 then [48 + n] else decBytes (n / 10) ++ [48 + n % 10]
termination_by n
decreasing_by exact Nat.div_lt_self (by omega) (by norm_num)

theorem decBytes_digits (n : Nat) : ∀ b ∈ decBytes n, 48 ≤ b ∧ b ≤ 57 := by
  induction n using Nat.strong_induction_on with
  | _ n ih =>
    rw [decBytes]
    split
    · intro b hb
      simp only [List.mem_singleton] at hb
      omega
    · intro b hb
      simp only [List.mem_append, List.mem_singleton] at hb
      rcases hb with hb | hb
      · exact ih (n / 10) (Nat.div_lt_self (by omega) (by norm_num)) b hb
      · have := Nat.mod_lt n (y := 10) (by norm_num)
        omega

/-- The loose-object header `"{type} {len}\0"` written by `store_object`. -/
def objectHeader (t : ObjectType) (len : Nat) : List Nat :=
  t.keyword ++ [32] ++ decBytes len ++ [0]

/-- The full decompressed loose-object file: header followed by content. -/
def objBytes (o : Object) : List Nat :=
  objectHeader o.object_type o.content.length ++ o.content

/-- `read_until(0)`: split a byte stream into the part up to and including
the first NUL (all of it when there is none) and the remainder. -/
def splitAtNul : List Nat → List Nat × List Nat
  | [] => ([], [])
  | b :: r =>
    if b = 0 then ([0], r)
    else
      let p := splitAtNul r
      (b :: p.1, p.2)

/-- The decompress-and-parse phase of `get_object`: the header runs up to the
first NUL; its leading keyword alone selects the type (`bail` when none
matches); every byte after the NUL is the content.  The decimal length in the
header is never inspected. -/
def parseObjectFile (bytes : List Nat) : Option Object :=
  let hdr := (splitAtNul bytes).1
  let content := (splitAtNul bytes).2
  if List.isPrefixOf (ObjectType.Blob.keyword ++ [32]) hdr then some ⟨.Blob, content⟩
  else if List.isPrefixOf (ObjectType.Tree.keyword ++ [32]) hdr then some ⟨.Tree, content⟩
  else if List.isPrefixOf (ObjectType.Commit.keyword ++ [32]) hdr then some ⟨.Commit, content⟩
  else none

/-- `GitRepo::store_object`: hash the header+content bytes to get the id,
then persist those bytes at the id's path.  The hash (SHA-1 in the source)
is an opaque pure function of the bytes, passed in as a parameter. -/
def store_object (hash : List Nat → List Nat) (o : Object)
    (store : List Nat → Option (List Nat)) :
    List Nat × (List Nat → Option (List Nat)) :=
  let bytes := objBytes o
  let oid := hash bytes
  (oid, fun k => if k = oid then some bytes else store k)

/-- `GitRepo::get_object`: open the file at the id's path (`NotFound` when
absent), decompress, and parse header and content. -/
def get_object (store : List Nat → Option (List Nat)) (oid : List Nat) : Option Object :=
  match store oid with
  | none => none
  | some bytes => parseObjectFile bytes

theorem splitAtNul_append (pre rest : List Nat) (h : 0 ∉ pre) :
    splitAtNul (pre ++ 0 :: rest) = (pre ++ [0], rest) := by
  induction pre with
  | nil => simp [splitAtNul]
  | cons b bs ih =>
    simp only [List.mem_cons, not_or] at h
    simp only [List.cons_append, splitAtNul]
    rw [if_neg (fun hb => h.1 hb.symm)]
    simp [ih h.2]

theorem isPrefixOf_append_self (l r : List Nat) : List.isPrefixOf l (l ++ r) = true := by
  induction l with
  | nil => simp [List.isPrefixOf]
  | cons a as ih => simp [List.isPrefixOf, ih]

theorem keyword_no_nul (t : ObjectType) : 0 ∉ t.keyword ++ [32] := by
  cases t <;> decide

/-- Any header of the form `keyword ++ " " ++ mid ++ "\0"` with a NUL-free
`mid` parses back to its type and trailing content. -/
theorem parseObjectFile_header (t : ObjectType) (mid content : List Nat) (h : 0 ∉ mid) :
    parseObjectFile (t.keyword ++ [32] ++ mid ++ 0 :: content) = some ⟨t, content⟩ := by
  have hpre : (0 : Nat) ∉ t.keyword ++ [32] ++ mid := by
    intro hk
    rcases List.mem_append.mp hk with hk | hk
    · exact keyword_no_nul t hk
    · exact h hk
  have hsplit := splitAtNul_append (t.keyword ++ [32] ++ mid) content hpre
  simp only [parseObjectFile]
  rw [hsplit]
  cases t <;>
    simp [ObjectType.keyword, List.isPrefixOf, List.cons_append, List.nil_append,
      List.append_assoc]

/-- C1: storing an object and reading it back at the returned id yields an
object with byte-identical content and equal type; the id is a function of
`(type, content)` alone, so storing the same pair twice — from any two store
states — returns the same id. -/
theorem store_object_get_object_roundtrip
    (hash : List Nat → List Nat) (o : Object) (st : List Nat → Option (List Nat)) :
    get_object (store_object hash o st).2 (store_object hash o st).1 = some o
    ∧ ∀ st2 : List Nat → Option (List Nat),
        (store_object hash o st).1 = (store_object hash o st2).1 := by
  constructor
  · have hbytes : objBytes o = o.object_type.keyword ++ [32] ++ decBytes o.content.length
        ++ 0 :: o.content := by
      simp [objBytes, objectHeader, List.append_assoc]
    simp only [store_object, get_object, if_true]
    rw [hbytes,
      parseObjectFile_header o.object_type (decBytes o.content.length) o.content
        (fun hmem => by have := decBytes_digits o.content.length 0 hmem; omega)]
  · intro st2
    rfl

/-- C10: `get_object` takes the type solely from the leading keyword of the
header (the bytes before the first NUL) and returns every byte after that NUL
as the content; the decimal length in the header is never parsed or checked,
so any NUL-free filler — in particular a length that disagrees with the real
content length — is accepted. -/
theorem get_object_ignores_declared_length (mid content : List Nat) (h : 0 ∉ mid) :
    parseObjectFile (ObjectType.Blob.keyword ++ [32] ++ mid ++ 0 :: content)
        = some ⟨.Blob, content⟩
    ∧ parseObjectFile (ObjectType.Tree.keyword ++ [32] ++ mid ++ 0 :: content)
        = some ⟨.Tree, content⟩
    ∧ parseObjectFile (ObjectType.Commit.keyword ++ [32] ++ mid ++ 0 :: content)
        = some ⟨.Commit, content⟩ :=
  ⟨parseObjectFile_header .Blob mid content h,
   parseObjectFile_header .Tree mid content h,
   parseObjectFile_header .Commit mid content h⟩

theorem get_object_ignores_declared_length_witness :
    parseObjectFile (ObjectType.Blob.keyword ++ [32] ++ [57, 57, 57] ++ 0 :: [7, 8])
        = some ⟨.Blob, [7, 8]⟩ :=
  (get_object_ignores_declared_length [57, 57, 57] [7, 8] (by decide)).1

/-! ## Packfile variable-length integers (`src/pack.rs`) -/

/-- Loop body of `read_var_int`: or the low 7 bits of each byte into `res` at
the running shift, stopping — as the source is written — when the byte is
strictly below 127 (`if b < 127 { break; }`).  Running off the end of the
buffer models the `get_u8` panic. -/
def read_vi_aux : List Nat → Nat → Nat → Option (Nat × List Nat)
  | [], _, _ => none
  | b :: r, res, shift =>
    let res2 := res ||| ((b &&& 127) <<< shift)
    if b < 127 then some (res2, r) else read_vi_aux r res2 (shift + 7)

/-- `read_var_int` from `pack.rs`: the plain (type-less) varint decoder used
for delta sizes and ofs-delta offsets. -/
def read_var_int (s : List Nat) : Option (Nat × List Nat) :=
  read_vi_aux s 0 0

/-- Continuation loop of `read_type_and_var_int` after the first byte; this
one stops when the byte is at most 127 (`if b <= 127 { break; }`). -/
def read_tv_aux : List Nat → Nat → Nat → Option (Nat × List Nat)
  | [], _, _ => none
  | b :: r, res, shift =>
    let res2 := res ||| ((b &&& 127) <<< shift)
    if b ≤ 127 then some (res2, r) else read_tv_aux r res2 (shift + 7)

/-- `read_type_and_var_int` from `pack.rs`: the first byte carries the 3-bit
type in bits 4-6 and the low 4 size bits; later bytes contribute 7 bits each
at shifts 4, 11, 18, …. -/
def read_type_and_var_int : List Nat → Option (Nat × Nat × List Nat)
  | [] => none
  | b :: r =>
    let typ := (b &&& 112) >>> 4
    let res := b &&& 15
    if b ≤ 127 then some (typ, res, r)
    else
      match read_tv_aux r res 4 with
      | none => none
      | some (v, rest) => some (typ, v, rest)

/-- The canonical 7-bits-per-byte varint encoding described by the claim and
spec: low chunk first, continuation bit set exactly when another byte
follows.  (The repository contains no encoder; the argument also bounds the
recursion as fuel, `n / 128 < n` for `n ≥ 128`.) -/
def encodeVarIntAux : Nat → Nat → List Nat
  | 0, n => [n % 128]
  | fuel + 1, n => if n < 128 then [n] else (128 + n % 128) :: encodeVarIntAux fuel (n / 128)

/-- Canonical plain varint encoding of a size. -/
def encodeVarInt (n : Nat) : List Nat := encodeVarIntAux n n

/-- Canonical type+size varint encoding: 3-bit type and 4 size bits in the
first byte, then plain 7-bit chunks. -/
def encodeTypeVarInt (t n : Nat) : List Nat :=
  if n < 16 then [(t <<< 4) ||| n]
  else (128 ||| (t <<< 4) ||| (n % 16)) :: encodeVarInt (n / 16)

/-- C2 (code bug): `read_var_int` breaks on `b < 127` instead of `b <= 127`,
so the terminating byte `0x7f` — high (continuation) bit clear — does not
stop the loop.  Decoding the canonical one-byte encoding of 127 runs off the
end of the buffer (`get_u8` panic), and with a following byte present the
decoder consumes two bytes where the format defines one.  The sibling
`read_type_and_var_int`, whose loop breaks on `b <= 127`, handles the
parallel boundary correctly. -/
theorem read_var_int_stops_early_bug :
    encodeVarInt 127 = [127]
    ∧ read_var_int [127] = none
    ∧ read_var_int [127, 0] = some (127, [])
    ∧ encodeTypeVarInt 3 127 = [191, 7]
    ∧ read_type_and_var_int [191, 7] = some (3, 127, [])
    ∧ read_var_int (encodeVarInt 126) = some (126, [])
    ∧ read_var_int (encodeVarInt 300) = some (300, []) := by
  decide

/-! ## Packfile header (`src/pack.rs`: `PackHeader::parse`) -/

/-- `PackHeader` from `pack.rs`. -/
structure PackHeader where
  sig : List Nat
  version : Nat
  num_objects : Nat
deriving DecidableEq, Repr

/-- `get_u32`: four big-endian bytes. -/
def be32 (a b c d : Nat) : Nat := ((a * 256 + b) * 256 + c) * 256 + d

/-- `PackHeader::parse`: 4-byte signature that must be `"PACK"` (bytes
80,65,67,75), a big-endian version that must be 2 or 3, then the big-endian
object count; too-short input models a `Buf` panic. -/
def PackHeader.parse : List Nat → Option (PackHeader × List Nat)
  | a :: b :: c :: d :: rest =>
    if [a, b, c, d] = [80, 65, 67, 75] then
      match rest with
      | e :: f :: g :: h :: r2 =>
        let v := be32 e f g h
        if v = 2 ∨ v = 3 then
          match r2 with
          | i :: j :: k :: l :: r3 => some (⟨[a, b, c, d], v, be32 i j k l⟩, r3)
          | _ => none
        else none
      | _ => none
    else none
  | _ => none

/-- C6: header parsing fails for every input whose first 4 bytes are not
exactly `"PACK"`, and for every `"PACK"`-signed input whose big-endian
version is neither 2 nor 3; with signature `"PACK"` and version 2 or 3 it
returns that signature, version, and the following big-endian object
count. -/
theorem pack_header_parse_spec :
    (∀ a b c d rest, [a, b, c, d] ≠ [80, 65, 67, 75] →
        PackHeader.parse (a :: b :: c :: d :: rest) = none)
    ∧ (∀ e f g h r2, ¬(be32 e f g h = 2 ∨ be32 e f g h = 3) →
        PackHeader.parse (80 :: 65 :: 67 :: 75 :: e :: f :: g :: h :: r2) = none)
    ∧ (∀ e f g h i j k l r3, (be32 e f g h = 2 ∨ be32 e f g h = 3) →
        PackHeader.parse (80 :: 65 :: 67 :: 75 :: e :: f :: g :: h :: i :: j :: k :: l :: r3)
          = some (⟨[80, 65, 67, 75], be32 e f g h, be32 i j k l⟩, r3)) := by
  refine ⟨?_, ?_, ?_⟩
  · intro a b c d rest hsig
    simp only [PackHeader.parse]
    rw [if_neg hsig]
  · intro e f g h r2 hver
    simp only [PackHeader.parse, if_true]
    rw [if_neg hver]
  · intro e f g h i j k l r3 hver
    simp only [PackHeader.parse, if_true]
    rw [if_pos hver]

theorem pack_header_parse_spec_witness :
    PackHeader.parse [0, 0, 0, 0, 0, 0, 0, 2, 0, 0, 0, 5] = none
    ∧ PackHeader.parse [80, 65, 67, 75, 0, 0, 0, 1, 0, 0, 0, 5] = none
    ∧ PackHeader.parse [80, 65, 67, 75, 0, 0, 0, 4, 0, 0, 0, 5] = none
    ∧ PackHeader.parse [80, 65, 67, 75, 0, 0, 0, 2, 0, 0, 0, 5]
        = some (⟨[80, 65, 67, 75], 2, 5⟩, []) :=
  ⟨pack_header_parse_spec.1 0 0 0 0 [0, 0, 0, 2, 0, 0, 0, 5] (by decide),
   pack_header_parse_spec.2.1 0 0 0 1 [0, 0, 0, 5] (by decide),
   pack_header_parse_spec.2.1 0 0 0 4 [0, 0, 0, 5] (by decide),
   by
    have := pack_header_parse_spec.2.2 0 0 0 2 0 0 0 5 [] (by norm_num [be32])
    simpa [be32] using this⟩

/-! ## Delta instructions and resolution (`src/pack.rs`) -/

/-- A parsed delta instruction (`DeltaInstruction` in `pack.rs`). -/
inductive DeltaInstruction where
  | copy : Nat → Nat → DeltaInstruction
  | add : Nat → DeltaInstruction
deriving DecidableEq, Repr

/-- One conditional byte read of the copy-instruction loops: when the
selector bit is set, consume the next byte (panic on an empty buffer);
otherwise contribute 0 without consuming anything. -/
def readFlagged (instr bit : Nat) (s : List Nat) : Option (Nat × List Nat) :=
  if instr &&& bit ≠ 0 then
    match s with
    | [] => none
    | b :: r => some (b, r)
  else some (0, s)

/-- `DeltaInstruction::parse`: high bit set selects a copy instruction whose
bits 0-3 pick little-endian offset bytes and bits 4-6 little-endian size
bytes (absent bytes contribute zero); high bit clear is an add instruction
whose size is the low 7 bits, asserted nonzero. -/
def DeltaInstruction.parse : List Nat → Option (DeltaInstruction × List Nat)
  | [] => none
  | instr :: rest =>
    if instr &&& 128 ≠ 0 then do
      let (o0, r0) ← readFlagged instr 1 rest
      let (o1, r1) ← readFlagged instr 2 r0
      let (o2, r2) ← readFlagged instr 4 r1
      let (o3, r3) ← readFlagged instr 8 r2
      let (s0, r4) ← readFlagged instr 16 r3
      let (s1, r5) ← readFlagged instr 32 r4
      let (s2, r6) ← readFlagged instr 64 r5
      pure (DeltaInstruction.copy (s0 ||| (s1 <<< 8) ||| (s2 <<< 16))
              (o0 ||| (o1 <<< 8) ||| (o2 <<< 16) ||| (o3 <<< 24)), r6)
    else
      let size := instr &&& 127
      if size = 0 then none else pure (DeltaInstruction.add size, rest)

theorem readFlagged_length {instr bit : Nat} {s r : List Nat} {v : Nat}
    (h : readFlagged instr bit s = some (v, r)) : r.length ≤ s.length := by
  rw [readFlagged.eq_def] at h
  split at h
  · cases s with
    | nil => exact absurd h (by simp)
    | cons b t =>
      simp only [Option.some.injEq, Prod.mk.injEq] at h
      rw [← h.2]
      simp
  · simp only [Option.some.injEq, Prod.mk.injEq] at h
    rw [← h.2]

theorem DeltaInstruction.parse_length {s r : List Nat} {i : DeltaInstruction}
    (h : DeltaInstruction.parse s = some (i, r)) : r.length < s.length := by
  cases s with
  | nil => exact absurd h (by simp [DeltaInstruction.parse])
  | cons instr rest =>
    rw [DeltaInstruction.parse] at h
    split at h
    · simp only [Option.bind_eq_bind, Option.bind_eq_some, Option.pure_def,
        Option.some.injEq, Prod.mk.injEq, Prod.exists] at h
      obtain ⟨o0, r0, h0, o1, r1, h1, o2, r2, h2, o3, r3, h3,
        s0, r4, h4, s1, r5, h5, s2, r6, h6, _, hr⟩ := h
      have := readFlagged_length h0
      have := readFlagged_length h1
      have := readFlagged_length h2
      have := readFlagged_length h3
      have := readFlagged_length h4
      have := readFlagged_length h5
      have := readFlagged_length h6
      subst hr
      simp only [List.length_cons]
      omega
    · dsimp only at h
      split at h
      · exact absurd h (by simp)
      · simp only [Option.pure_def, Option.some.injEq, Prod.mk.injEq] at h
        rw [← h.2]
        simp

/-- The instruction loop of `PackFile::explode_into_repo`: while bytes
remain, parse an instruction; a copy appends `base[offset..offset+size]`
(slicing panics when `offset+size` exceeds the base length), an add moves
the next `size` literal bytes from the stream (`copy_to_bytes` panics when
fewer remain). -/
def applyInstrs (base stream acc : List Nat) : Option (List Nat) :=
  if stream = [] then some acc
  else
    match hp : DeltaInstruction.parse stream with
    | none => none
    | some (DeltaInstruction.copy size offset, rest) =>
      if offset + size ≤ base.length then
        applyInstrs base rest (acc ++ (base.drop offset).take size)
      else none
    | some (DeltaInstruction.add size, rest) =>
      if size ≤ rest.length then
        applyInstrs base (rest.drop size) (acc ++ rest.take size)
      else none
termination_by stream.length
decreasing_by
  · exact DeltaInstruction.parse_length hp
  · have := DeltaInstruction.parse_length hp
    simp only [List.length_drop]
    omega

/-- The delta-application path of `explode_into_repo`: read the base size
varint (asserted equal to the base content length), read the target size
varint reinterpreting a decoded 0 as 0x10000, run the instruction stream,
and assert the reconstruction has exactly the target length. -/
def resolveDelta (base delta : List Nat) : Option (List Nat) :=
  match read_var_int delta with
  | none => none
  | some (baseSize, r1) =>
    if baseSize = base.length then
      match read_var_int r1 with
      | none => none
      | some (tsRaw, r2) =>
        let targetSize := if tsRaw = 0 then 65536 else tsRaw
        match applyInstrs base r2 [] with
        | none => none
        | some recon => if recon.length = targetSize then some recon else none
    else none

/-- C4: whenever the decoded target-size varint of a delta is exactly 0, the
target length used for reconstruction — and checked against the final
reconstructed buffer — is 65536, so any successful resolution of such a
delta yields exactly 65536 bytes. -/
theorem delta_zero_target_size (base delta out : List Nat) (bs tsRaw : Nat)
    (r1 r2 : List Nat)
    (hres : resolveDelta base delta = some out)
    (h1 : read_var_int delta = some (bs, r1))
    (h2 : read_var_int r1 = some (tsRaw, r2))
    (h0 : tsRaw = 0) : out.length = 65536 := by
  subst h0
  rw [resolveDelta, h1] at hres
  dsimp only at hres
  split at hres
  · rw [h2] at hres
    dsimp only at hres
    cases ha : applyInstrs base r2 [] with
    | none =>
      rw [ha] at hres
      exact absurd hres (by simp)
    | some recon =>
      rw [ha] at hres
      dsimp only at hres
      have hinner : (if (0 : Nat) = 0 then (65536 : Nat) else 0) = 65536 := by norm_num
      rw [hinner] at hres
      split at hres
      · rename_i hlen
        simp only [Option.some.injEq] at hres
        rw [← hres]
        exact hlen
      · exact absurd hres (by simp)
  · exact absurd hres (by simp)

/-- C5: a parsed copy instruction with in-range `offset + size` appends
exactly the base slice `base[offset..offset+size]` — characterized
element-by-element — to the reconstruction buffer, and the instruction loop
fails whenever `offset + size` exceeds the base length. -/
theorem delta_copy_semantics (base stream acc : List Nat) (size offset : Nat)
    (rest : List Nat)
    (hp : DeltaInstruction.parse stream = some (.copy size offset, rest)) :
    (offset + size ≤ base.length →
        applyInstrs base stream acc
          = applyInstrs base rest (acc ++ (base.drop offset).take size)
        ∧ ((base.drop offset).take size).length = size
        ∧ ∀ i < size, ((base.drop offset).take size)[i]? = base[offset + i]?)
    ∧ (base.length < offset + size → applyInstrs base stream acc = none) := by
  have hne : stream ≠ [] := by
    intro he
    rw [he] at hp
    exact absurd hp (by simp [DeltaInstruction.parse])
  constructor
  · intro hle
    refine ⟨?_, ?_, ?_⟩
    · rw [applyInstrs, if_neg hne]
      split
      · rename_i heq
        exact absurd (heq.symm.trans hp) (by simp)
      · rename_i size2 offset2 rest2 heq
        have he := heq.symm.trans hp
        simp only [Option.some.injEq, Prod.mk.injEq, DeltaInstruction.copy.injEq] at he
        obtain ⟨⟨hs, ho⟩, hr⟩ := he
        subst hs; subst ho; subst hr
        rw [if_pos hle]
      · rename_i size2 rest2 heq
        exact absurd (heq.symm.trans hp) (by simp)
    · rw [List.length_take, List.length_drop]
      omega
    · intro i hi
      simp [List.getElem?_take, List.getElem?_drop, hi]
  · intro hgt
    rw [applyInstrs, if_neg hne]
    split
    · rename_i heq
      exact absurd (heq.symm.trans hp) (by simp)
    · rename_i size2 offset2 rest2 heq
      have he := heq.symm.trans hp
      simp only [Option.some.injEq, Prod.mk.injEq, DeltaInstruction.copy.injEq] at he
      obtain ⟨⟨hs, ho⟩, hr⟩ := he
      subst hs; subst ho; subst hr
      rw [if_neg (by omega)]
    · rename_i size2 rest2 heq
      exact absurd (heq.symm.trans hp) (by simp)

/-- Symbolic evaluation of `resolveDelta` on the concrete delta stream
`[128,128,4, 0, 192,1]` — base-size varint 65536, target-size varint 0,
one copy instruction covering `base[0..65536]` — for any base of length
65536.  Kept abstract in `base` so no 65536-element list is ever reduced. -/
theorem resolveDelta_copyAll_eval (base : List Nat) (hb : base.length = 65536) :
    resolveDelta base [128, 128, 4, 0, 192, 1]
      = some ([] ++ (base.drop 0).take 65536) := by
  have h1 : read_var_int [128, 128, 4, 0, 192, 1] = some (65536, [0, 192, 1]) := by decide
  have h2 : read_var_int [0, 192, 1] = some (0, [192, 1]) := by decide
  have hparse : DeltaInstruction.parse [192, 1]
      = some (DeltaInstruction.copy 65536 0, []) := by decide
  have happ : applyInstrs base [192, 1] [] = some ([] ++ (base.drop 0).take 65536) := by
    rw [applyInstrs, if_neg (by simp)]
    split
    · rename_i heq
      exact absurd (heq.symm.trans hparse) (by simp)
    · rename_i size2 offset2 rest2 heq
      have he := heq.symm.trans hparse
      simp only [Option.some.injEq, Prod.mk.injEq, DeltaInstruction.copy.injEq] at he
      obtain ⟨⟨hs, ho⟩, hr⟩ := he
      subst hs; subst ho; subst hr
      rw [if_pos (by omega)]
      rw [applyInstrs, if_pos rfl]
    · rename_i size2 rest2 heq
      exact absurd (heq.symm.trans hparse) (by simp)
  rw [resolveDelta, h1]
  dsimp only
  rw [if_pos hb.symm, h2]
  dsimp only
  rw [happ]
  dsimp only
  rw [show (if (0 : Nat) = 0 then (65536 : Nat) else 0) = 65536 from rfl]
  rw [if_pos (by simp [List.length_take, List.length_drop, hb])]

theorem delta_zero_target_size_witness :
    ([] ++ ((List.replicate 65536 (0 : Nat)).drop 0).take 65536).length = 65536 :=
  delta_zero_target_size (List.replicate 65536 0) [128, 128, 4, 0, 192, 1]
    ([] ++ ((List.replicate 65536 (0 : Nat)).drop 0).take 65536) 65536 0 [0, 192, 1] [192, 1]
    (resolveDelta_copyAll_eval _ (by rw [List.length_replicate]))
    (by decide) (by decide) rfl

theorem delta_copy_semantics_witness :
    applyInstrs [10, 20, 30] [145, 1, 1] [] = some [20]
    ∧ applyInstrs [10, 20, 30] [145, 3, 1] [] = none := by
  constructor
  · have h := (delta_copy_semantics [10, 20, 30] [145, 1, 1] [] 1 1 [] (by decide)).1
      (by norm_num)
    rw [h.1, applyInstrs]
    simp
  · exact (delta_copy_semantics [10, 20, 30] [145, 3, 1] [] 1 3 [] (by decide)).2
      (by norm_num)

/-! ## Ref discovery (`src/client.rs`: `GitClient::discover_refs`) -/

/-- ASCII whitespace as trimmed by the source's `str::trim` (modelled at the
byte level for ASCII input). -/
def isWsB (b : Nat) : Bool := b == 32 || b == 9 || b == 10 || b == 13

/-- Byte-level `trim`: drop whitespace from both ends. -/
def trimB (s : List Nat) : List Nat :=
  ((s.dropWhile isWsB).reverse.dropWhile isWsB).reverse

/-- `slice::split` on a separator byte: like Rust's, adjacent separators and
ends produce empty chunks. -/
def splitSep (sep : Nat) : List Nat → List (List Nat)
  | [] => [[]]
  | b :: r =>
    if b = sep then [] :: splitSep sep r
    else
      match splitSep sep r with
      | [] => [[b]]
      | chunk :: rest => (b :: chunk) :: rest

/-- `hex::decode`: pairs of hex characters to bytes; fails on a non-hex
character or odd length. -/
def hexPairs : List Nat → Option (List Nat)
  | [] => some []
  | [_] => none
  | a :: b :: r =>
    match hexVal a, hexVal b, hexPairs r with
    | some va, some vb, some rest => some ((va * 16 + vb) :: rest)
    | _, _, _ => none

/-- `ObjectId::from_str`: exactly 40 characters, hex-decoded to 20 bytes. -/
def parseOid (s : List Nat) : Option (List Nat) :=
  if s.length = 40 then hexPairs s else none

/-- `Ref` from `lib.rs`: an object id (20 raw bytes) and a ref name
(modelled as its bytes). -/
structure Ref where
  oid : List Nat
  name : List Nat
deriving DecidableEq, Repr

/-- Capability-list extraction applied to a NUL suffix: split on spaces and
trim each word (the `HashSet` is modelled by the list of inserted words). -/
def capsOfSuffix (suffix : List Nat) : List (List Nat) :=
  (splitSep 32 suffix).map trimB

/-- The per-line capability update of the `discover_refs` loop: when the part
after byte 41 contains a NUL, the bytes after that NUL become the new
capability set; otherwise the set is left alone. -/
def capsAfterNul (pkt : List Nat) : Option (List (List Nat)) :=
  match (pkt.drop 41).findIdx? (fun b => b == 0) with
  | some i => some (capsOfSuffix ((pkt.drop 41).drop (i + 1)))
  | none => none

/-- The advertisement loop of `discover_refs`, over the already-framed Data
payloads: bytes 0-39 are the hex id (parse failure aborts), byte 40 is
skipped, the rest is the ref name; a NUL inside the name splits off the
capability list — on *every* line that has one — and the name keeps the part
before the NUL.  Lines shorter than 41 bytes model the slicing panic. -/
def refLoop : List (List Nat) → List (List Nat) → List Ref →
    Option (List (List Nat) × List Ref)
  | [], caps, refs => some (caps, refs)
  | pkt :: rest, caps, refs =>
    if pkt.length < 41 then none
    else
      let sha := pkt.take 40
      let rn := pkt.drop 41
      let name := match rn.findIdx? (fun b => b == 0) with
        | some i => rn.take i
        | none => rn
      let caps2 := match capsAfterNul pkt with
        | some cs => cs
        | none => caps
      match parseOid sha with
      | none => none
      | some oid => refLoop rest caps2 (refs ++ [⟨oid, trimB name⟩])

/-- A first advertisement line carrying capability word `"capA"` after the
NUL (id: forty `'a'` characters, name `HEAD`). -/
def refLineA : List Nat :=
  List.replicate 40 97 ++ [32] ++ [72, 69, 65, 68] ++ [0] ++ [99, 97, 112, 65]

/-- A second advertisement line carrying capability word `"capB"` after a
NUL (name `main`). -/
def refLineB : List Nat :=
  List.replicate 40 97 ++ [32] ++ [109, 97, 105, 110] ++ [0] ++ [99, 97, 112, 66]

/-- C8 counterexample: on a response whose second advertisement line also
carries a NUL-delimited suffix, the returned capability set is the second
line's list, not the first line's — later lines do replace the set. -/
theorem discover_refs_caps_counterexample :
    (refLoop [refLineA, refLineB] [] []).map Prod.fst = some [[99, 97, 112, 66]]
    ∧ capsAfterNul refLineA = some [[99, 97, 112, 65]]
    ∧ ¬(refLoop [refLineA, refLineB] [] []).map Prod.fst = some [[99, 97, 112, 65]] := by
  decide

/-- The capability set the loop ends with: the NUL suffix of the last line
that has one, the initial set when none does. -/
def finalCaps (pkts : List (List Nat)) (caps0 : List (List Nat)) : List (List Nat) :=
  pkts.foldl (fun acc pkt =>
    match capsAfterNul pkt with
    | some cs => cs
    | none => acc) caps0

/-- C8 amended: the capability set returned by the ref-discovery loop is the
space-separated list after the NUL byte of the *last* advertised line
containing a NUL — every such line overwrites the set — which coincides with
the first line's list exactly when no later line carries a NUL. -/
theorem discover_refs_caps_last_nul (pkts : List (List Nat)) (caps0 : List (List Nat))
    (refs0 : List Ref) (caps : List (List Nat)) (refs : List Ref)
    (h : refLoop pkts caps0 refs0 = some (caps, refs)) :
    caps = finalCaps pkts caps0 := by
  induction pkts generalizing caps0 refs0 with
  | nil =>
    simp only [refLoop, Option.some.injEq, Prod.mk.injEq] at h
    rw [finalCaps, List.foldl_nil, ← h.1]
  | cons pkt rest ih =>
    rw [refLoop] at h
    split at h
    · exact absurd h (by simp)
    · dsimp only at h
      split at h
      · exact absurd h (by simp)
      · rw [finalCaps, List.foldl_cons, ← finalCaps]
        exact ih _ _ h

theorem discover_refs_caps_last_nul_witness :
    [[99, 97, 112, 66]] = finalCaps [refLineA, refLineB] [] :=
  discover_refs_caps_last_nul [refLineA, refLineB] [] [] [[99, 97, 112, 66]]
    [⟨List.replicate 20 170, [72, 69, 65, 68]⟩, ⟨List.replicate 20 170, [109, 97, 105, 110]⟩]
    (by decide)

/-! ## Clone ref writing (`src/lib.rs`: `GitRepo::clone`, `Ref::is_tag`) -/

/-- `Ref::is_tag`: the name starts with `"refs/tags"`. -/
def Ref.is_tag (r : Ref) : Bool :=
  [114, 101, 102, 115, 47, 116, 97, 103, 115].isPrefixOf r.name

/-- `Ref::is_peeled_tag`: the name ends with the three bytes `94, 123, 125`
(caret, open brace, close brace). -/
def Ref.is_peeled_tag (r : Ref) : Bool :=
  [94, 123, 125].isSuffixOf r.name

/-- `name.split('/')` followed by `.last()`: the final path segment used as
the created file's name. -/
def lastSeg (name : List Nat) : List Nat := (splitSep 47 name).getLastD []

/-- `hex::encode` of raw id bytes (the `Display` form of `ObjectId`). -/
def hexEnc (bytes : List Nat) : List Nat :=
  bytes.flatMap (fun b => [hexDigit (b / 16 % 16), hexDigit (b % 16)])

/-- The file body written for a ref: the 40-hex id and a newline. -/
def refFileContent (oid : List Nat) : List Nat := hexEnc oid ++ [10]

/-- The (file name, file body) pair materialized for one ref. -/
def refFile (r : Ref) : List Nat × List Nat := (lastSeg r.name, refFileContent r.oid)

/-- The ref-writing step of `GitRepo::clone`: drop peeled-tag entries, then
partition by `is_tag`; the first component lists the tag files written under
`refs/tags/`, the second the branch files written under
`refs/remotes/origin/`, in advertisement order. -/
def writeRefs (advertised : List Ref) :
    List (List Nat × List Nat) × List (List Nat × List Nat) :=
  let kept := advertised.filter (fun r => !r.is_peeled_tag)
  let parts := kept.partition (fun r => r.is_tag)
  (parts.1.map refFile, parts.2.map refFile)

/-- The advertised `HEAD` entry of the counterexample. -/
def advHead : Ref := ⟨List.replicate 20 171, [72, 69, 65, 68]⟩

/-- The advertised `refs/heads/main` entry of the counterexample. -/
def advMain : Ref :=
  ⟨List.replicate 20 171,
   [114, 101, 102, 115, 47, 104, 101, 97, 100, 115, 47, 109, 97, 105, 110]⟩

/-- C9 counterexample: cloning with an advertisement containing the entry
literally named `HEAD` writes a branch file for it (file name `HEAD`,
alongside `main`) — the partition excludes only peeled tags, not `HEAD`. -/
theorem clone_refs_head_branch_counterexample :
    advHead.is_tag = false ∧ advHead.is_peeled_tag = false
    ∧ (writeRefs [advHead, advMain]).2.map Prod.fst
        = [[72, 69, 65, 68], [109, 97, 105, 110]] := by
  decide

theorem writeRefs_eq (adv : List Ref) :
    writeRefs adv
      = ((adv.filter (fun r => r.is_tag && !r.is_peeled_tag)).map refFile,
         (adv.filter (fun r => !r.is_tag && !r.is_peeled_tag)).map refFile) := by
  rw [writeRefs]
  rw [List.partition_eq_filter_filter, List.filter_filter, List.filter_filter]
  simp [Function.comp]

/-- C9 amended: the advertised refs, after dropping peeled-tag entries, are
partitioned so that every `refs/tags/*` ref is written as a tag file and
every other ref — including the entry literally named `HEAD` — is written as
a branch file containing the hex id and a newline; nothing exempts `HEAD`. -/
theorem clone_refs_partition_amended (adv : List Ref) :
    (writeRefs adv).1 = (adv.filter (fun r => r.is_tag && !r.is_peeled_tag)).map refFile
    ∧ (writeRefs adv).2 = (adv.filter (fun r => !r.is_tag && !r.is_peeled_tag)).map refFile
    ∧ ∀ r ∈ adv, r.is_peeled_tag = false → r.is_tag = false →
        refFile r ∈ (writeRefs adv).2 := by
  refine ⟨by rw [writeRefs_eq], by rw [writeRefs_eq], ?_⟩
  intro r hr hpeel htag
  rw [writeRefs_eq]
  dsimp only
  exact List.mem_map_of_mem refFile (List.mem_filter.mpr ⟨hr, by simp [hpeel, htag]⟩)

theorem clone_refs_partition_amended_witness :
    refFile advHead ∈ (writeRefs [advHead, advMain]).2 :=
  (clone_refs_partition_amended [advHead, advMain]).2.2 advHead (by decide) (by decide)
    (by decide)

end GitRs
